import Mathlib

/-!
Verification of `fixed_size_lru_map` (src/lib.rs): a fixed-capacity
key/value cache that evicts the entry with the numerically smallest age
stamp when an insert of a new key would grow the table beyond capacity.

Sequential shallow embedding.  The `ArcSwap`/`rcu` layer only ensures that
each operation's read-modify-write of the table is atomic; a completed
operation is therefore a pure function from the pre-state to the
post-state plus return value, which is what we model.  The `HashMap` is
modelled as an association list without duplicate keys (iteration order of
a Rust `HashMap` is arbitrary; the list order stands in for it).  The
`AtomicUsize` recency clock `age` is a `Nat` field of the state, and
`fetch_add(1, SeqCst)` returns its pre-increment value.  A `CacheGuard`
wraps an `Inner { age: AtomicUsize, value: V }`; the `Arc` sharing is not
observable for the table-level claims proved here, so a guard is the pair
of its current age stamp and its value.
-/

set_option autoImplicit false
set_option linter.unusedSectionVars false

namespace FixedSizeLru

/-- Model of `Inner<V>`/`CacheGuard<V>`: the age stamp held in the guard's
`AtomicUsize` cell together with the wrapped value.  `Deref` on the source
guard exposes `value`. -/
structure CacheGuard (V : Type) where
  age : Nat
  value : V
  deriving DecidableEq, Repr

/-- Model of `FixedSizeLruMap<K, V, S>`: the recency clock `age`, the fixed
`capacity`, and the table `map` (the hasher `S` only affects bucket layout
of the Rust `HashMap`, never observable key/value content, so it has no
counterpart in the model). -/
structure FixedSizeLruMap (K V : Type) where
  age : Nat
  capacity : Nat
  map : List (K × CacheGuard V)
  deriving DecidableEq, Repr

variable {K V : Type} [DecidableEq K]

/-- Model of `HashMap::get`: the guard stored at `k`, if any. -/
def getEntry : List (K × CacheGuard V) → K → Option (CacheGuard V)
  | [], _ => none
  | p :: rest, k => if p.1 = k then some p.2 else getEntry rest k

/-- Model of `HashMap::insert`: replaces the entry at `k` (returning the
old guard) or appends a new entry (returning `none`). -/
def insertEntry : List (K × CacheGuard V) → K → CacheGuard V →
    List (K × CacheGuard V) × Option (CacheGuard V)
  | [], k, g => ([(k, g)], none)
  | p :: rest, k, g =>
    if p.1 = k then ((k, g) :: rest, some p.2)
    else
      let r := insertEntry rest k g
      (p :: r.1, r.2)

/-- Model of `HashMap::remove`: drops the entry at `k` and returns its
guard, if any. -/
def removeEntry : List (K × CacheGuard V) → K → List (K × CacheGuard V) × Option (CacheGuard V)
  | [], _ => ([], none)
  | p :: rest, k =>
    if p.1 = k then (rest, some p.2)
    else
      let r := removeEntry rest k
      (p :: r.1, r.2)

/-- One step of `Iterator::min_by` on the age comparison: keep the
accumulator unless the next entry's age is strictly smaller. -/
def minStep (acc q : K × CacheGuard V) : K × CacheGuard V :=
  if q.2.age < acc.2.age then q else acc

/-- Model of `map.iter().min_by(|l, r| l.1.0.age().cmp(&r.1.0.age()))`:
the entry with the smallest age (earliest such entry on ties; Rust's
`HashMap` iteration order is arbitrary, and ages are distinct in every
reachable state, so the tie-break is unobservable). -/
def minByAge : List (K × CacheGuard V) → Option (K × CacheGuard V)
  | [] => none
  | p :: rest => some (rest.foldl minStep p)

/-- Effect on the table of writing age `a` into the `AtomicUsize` cell of
the guard stored at `k` (the table and the guard share the cell through
the `Arc`). -/
def setGuardAge : List (K × CacheGuard V) → K → Nat → List (K × CacheGuard V)
  | [], _, _ => []
  | p :: rest, k, a =>
    if p.1 = k then (p.1, ⟨a, p.2.value⟩) :: rest
    else p :: setGuardAge rest k a

namespace FixedSizeLruMap

/-- `with_capacity_and_hasher(capacity, hash_builder)`: clock at 0, the
given capacity, empty table (the hasher argument is dropped by the model,
see `FixedSizeLruMap`). -/
def with_capacity_and_hasher (capacity : Nat) : FixedSizeLruMap K V :=
  ⟨0, capacity, []⟩

/-- `with_capacity(capacity)`: delegates to `with_capacity_and_hasher`
with the default hasher. -/
def with_capacity (capacity : Nat) : FixedSizeLruMap K V :=
  with_capacity_and_hasher capacity

/-- `contains_key(&self, key)`. -/
def contains_key (m : FixedSizeLruMap K V) (k : K) : Bool :=
  (getEntry m.map k).isSome

/-- `len(&self)`. -/
def len (m : FixedSizeLruMap K V) : Nat :=
  m.map.length

/-- `is_empty(&self)`. -/
def is_empty (m : FixedSizeLruMap K V) : Bool :=
  m.map.isEmpty

/-- `update_guard_age(&self, guard)` for the guard stored at `k`: a fresh
clock tick (`fetch_add` pre-increment value `m.age`) is swapped into the
guard's age cell. -/
def update_guard_age (m : FixedSizeLruMap K V) (k : K) : FixedSizeLruMap K V :=
  ⟨m.age + 1, m.capacity, setGuardAge m.map k m.age⟩

/-- `get(&self, key)`: when present, update the stored guard's age with a
fresh tick and return a clone of that guard; when absent, return `none`
and leave clock and table untouched. -/
def get (m : FixedSizeLruMap K V) (k : K) :
    FixedSizeLruMap K V × Option (CacheGuard V) :=
  match getEntry m.map k with
  | some g => (m.update_guard_age k, some ⟨m.age, g.value⟩)
  | none => (m, none)

/-- `internal_insert(&self, key, value)`: take a fresh tick, wrap `value`
in a new guard with that age, install it at `key`; if the key was new and
the table now exceeds capacity, remove the entry found by the minimum-age
scan.  Returns the new guard and the previously stored guard. -/
def internal_insert (m : FixedSizeLruMap K V) (k : K) (v : V) :
    FixedSizeLruMap K V × (CacheGuard V × Option (CacheGuard V)) :=
  let g : CacheGuard V := ⟨m.age, v⟩
  let r := insertEntry m.map k g
  let map2 :=
    match r.2 with
    | some _ => r.1
    | none =>
      if m.capacity < r.1.length then
        match minByAge r.1 with
        | some p => (removeEntry r.1 p.1).1
        | none => r.1
      else r.1
  (⟨m.age + 1, m.capacity, map2⟩, (g, r.2))

/-- `insert(&self, key, value)`: `internal_insert`, keeping only the
previously stored guard (`.1` in the source is the second component
here). -/
def insert (m : FixedSizeLruMap K V) (k : K) (v : V) :
    FixedSizeLruMap K V × Option (CacheGuard V) :=
  ((m.internal_insert k v).1, (m.internal_insert k v).2.2)

/-- `get_or_init(&self, key, f)`: `get`, and on a miss `internal_insert`
of the value produced by `f` (invoked only on the miss path). -/
def get_or_init (m : FixedSizeLruMap K V) (k : K) (f : Unit → V) :
    FixedSizeLruMap K V × CacheGuard V :=
  match m.get k with
  | (m1, some g) => (m1, g)
  | (m1, none) => ((m1.internal_insert k (f ())).1, (m1.internal_insert k (f ())).2.1)

/-- `remove(&self, key)`: `None` without touching anything when the key is
absent; otherwise drop the entry and return its guard (clock untouched). -/
def remove (m : FixedSizeLruMap K V) (k : K) :
    FixedSizeLruMap K V × Option (CacheGuard V) :=
  if m.contains_key k then
    let r := removeEntry m.map k
    (⟨m.age, m.capacity, r.1⟩, r.2)
  else (m, none)

end FixedSizeLruMap

/-- A completed call against the cache (the initializer of `get_or_init`
is modelled by the value it produces). -/
inductive Op (K V : Type) where
  | insertOp (k : K) (v : V)
  | getOp (k : K)
  | getOrInitOp (k : K) (v : V)
  | removeOp (k : K)
  deriving DecidableEq, Repr

/-- State reached after one completed call. -/
def applyOp (m : FixedSizeLruMap K V) : Op K V → FixedSizeLruMap K V
  | .insertOp k v => (m.internal_insert k v).1
  | .getOp k => (m.get k).1
  | .getOrInitOp k v => (m.get_or_init k (fun _ => v)).1
  | .removeOp k => (m.remove k).1

/-- State reached after a sequence of completed calls. -/
def run (m : FixedSizeLruMap K V) : List (Op K V) → FixedSizeLruMap K V
  | [] => m
  | o :: rest => run (applyOp m o) rest

/-- Representation invariant of every reachable state: the table has no
duplicate keys, and every stored age stamp was issued by an earlier clock
tick, hence is strictly below the clock. -/
def WF (m : FixedSizeLruMap K V) : Prop :=
  (m.map.map Prod.fst).Nodup ∧ ∀ p ∈ m.map, p.2.age < m.age

/-! ### Association-list lemmas -/

theorem insertEntry_snd (l : List (K × CacheGuard V)) (k : K) (g : CacheGuard V) :
    (insertEntry l k g).2 = getEntry l k := by
  induction l with
  | nil => rfl
  | cons p rest ih =>
    by_cases h : p.1 = k <;> simp [insertEntry, getEntry, h, ih]

theorem insertEntry_of_none (l : List (K × CacheGuard V)) (k : K) (g : CacheGuard V)
    (h : getEntry l k = none) : (insertEntry l k g).1 = l ++ [(k, g)] := by
  induction l with
  | nil => rfl
  | cons p rest ih =>
    by_cases hp : p.1 = k
    · simp [getEntry, hp] at h
    · simp only [getEntry, if_neg hp] at h
      simp [insertEntry, hp, ih h]

theorem length_insertEntry_some (l : List (K × CacheGuard V)) (k : K) (g g0 : CacheGuard V)
    (h : getEntry l k = some g0) : (insertEntry l k g).1.length = l.length := by
  induction l with
  | nil => simp [getEntry] at h
  | cons p rest ih =>
    by_cases hp : p.1 = k
    · simp [insertEntry, hp]
    · simp only [getEntry, if_neg hp] at h
      simp [insertEntry, hp, ih h]

theorem getEntry_insertEntry_self (l : List (K × CacheGuard V)) (k : K) (g : CacheGuard V) :
    getEntry (insertEntry l k g).1 k = some g := by
  induction l with
  | nil => simp [insertEntry, getEntry]
  | cons p rest ih =>
    by_cases hp : p.1 = k <;> simp [insertEntry, getEntry, hp, ih]

theorem getEntry_insertEntry_ne (l : List (K × CacheGuard V)) (k k' : K) (g : CacheGuard V)
    (h : k' ≠ k) : getEntry (insertEntry l k g).1 k' = getEntry l k' := by
  induction l with
  | nil => simp [insertEntry, getEntry, Ne.symm h]
  | cons p rest ih =>
    by_cases hp : p.1 = k
    · subst hp
      simp [insertEntry, getEntry, Ne.symm h]
    · by_cases hp' : p.1 = k' <;> simp [insertEntry, getEntry, hp, hp', h, ih]

theorem mem_insertEntry (l : List (K × CacheGuard V)) (k : K) (g : CacheGuard V)
    (q : K × CacheGuard V) (h : q ∈ (insertEntry l k g).1) : q = (k, g) ∨ q ∈ l := by
  induction l with
  | nil => simpa [insertEntry] using h
  | cons p rest ih =>
    by_cases hp : p.1 = k
    · simp only [insertEntry, if_pos hp, List.mem_cons] at h
      rcases h with h | h
      · exact Or.inl h
      · exact Or.inr (List.mem_cons_of_mem _ h)
    · simp only [insertEntry, if_neg hp, List.mem_cons] at h
      rcases h with h | h
      · exact Or.inr (h ▸ List.mem_cons_self _ _)
      · rcases ih h with h' | h'
        · exact Or.inl h'
        · exact Or.inr (List.mem_cons_of_mem _ h')

theorem keys_insertEntry_some (l : List (K × CacheGuard V)) (k : K) (g g0 : CacheGuard V)
    (h : getEntry l k = some g0) :
    (insertEntry l k g).1.map Prod.fst = l.map Prod.fst := by
  induction l with
  | nil => simp [getEntry] at h
  | cons p rest ih =>
    by_cases hp : p.1 = k
    · simp [insertEntry, hp]
    · simp only [getEntry, if_neg hp] at h
      simp [insertEntry, hp, ih h]

theorem removeEntry_snd (l : List (K × CacheGuard V)) (k : K) :
    (removeEntry l k).2 = getEntry l k := by
  induction l with
  | nil => rfl
  | cons p rest ih =>
    by_cases hp : p.1 = k <;> simp [removeEntry, getEntry, hp, ih]

theorem removeEntry_sublist (l : List (K × CacheGuard V)) (k : K) :
    (removeEntry l k).1.Sublist l := by
  induction l with
  | nil => simp [removeEntry]
  | cons p rest ih =>
    by_cases hp : p.1 = k
    · simp [removeEntry, hp, List.sublist_cons_self p rest]
    · simpa [removeEntry, hp] using ih.cons₂ p

theorem length_removeEntry_some (l : List (K × CacheGuard V)) (k : K) (g : CacheGuard V)
    (h : getEntry l k = some g) : (removeEntry l k).1.length + 1 = l.length := by
  induction l with
  | nil => simp [getEntry] at h
  | cons p rest ih =>
    by_cases hp : p.1 = k
    · simp [removeEntry, hp]
    · simp only [getEntry, if_neg hp] at h
      simp [removeEntry, hp, ih h]

theorem removeEntry_of_none (l : List (K × CacheGuard V)) (k : K)
    (h : getEntry l k = none) : (removeEntry l k).1 = l := by
  induction l with
  | nil => rfl
  | cons p rest ih =>
    by_cases hp : p.1 = k
    · simp [getEntry, hp] at h
    · simp only [getEntry, if_neg hp] at h
      simp [removeEntry, hp, ih h]

theorem getEntry_removeEntry_ne (l : List (K × CacheGuard V)) (k k' : K) (h : k' ≠ k) :
    getEntry (removeEntry l k).1 k' = getEntry l k' := by
  induction l with
  | nil => rfl
  | cons p rest ih =>
    by_cases hp : p.1 = k
    · subst hp
      have hpk : p.1 ≠ k' := fun hh => h hh.symm
      simp [removeEntry, getEntry, hpk]
    · by_cases hp' : p.1 = k' <;> simp [removeEntry, getEntry, hp, hp', h, ih]

theorem getEntry_eq_none_of_forall (l : List (K × CacheGuard V)) (k : K)
    (h : ∀ p ∈ l, p.1 ≠ k) : getEntry l k = none := by
  induction l with
  | nil => rfl
  | cons p rest ih =>
    have hp := h p (List.mem_cons_self _ _)
    simp only [getEntry, if_neg hp]
    exact ih fun q hq => h q (List.mem_cons_of_mem _ hq)

theorem forall_ne_of_getEntry_eq_none (l : List (K × CacheGuard V)) (k : K)
    (h : getEntry l k = none) : ∀ p ∈ l, p.1 ≠ k := by
  induction l with
  | nil => simp
  | cons p rest ih =>
    by_cases hp : p.1 = k
    · simp [getEntry, hp] at h
    · simp only [getEntry, if_neg hp] at h
      intro q hq
      rcases List.mem_cons.1 hq with h' | h'
      · exact h' ▸ hp
      · exact ih h q h'

theorem getEntry_isSome_of_mem (l : List (K × CacheGuard V)) (p : K × CacheGuard V)
    (h : p ∈ l) : ∃ g, getEntry l p.1 = some g := by
  induction l with
  | nil => simp at h
  | cons q rest ih =>
    by_cases hq : q.1 = p.1
    · exact ⟨q.2, by simp [getEntry, hq]⟩
    · rcases List.mem_cons.1 h with h' | h'
      · exact absurd (h' ▸ rfl) hq
      · simpa [getEntry, hq] using ih h'

theorem mem_getEntry (l : List (K × CacheGuard V)) (k : K) (g : CacheGuard V)
    (h : getEntry l k = some g) : (k, g) ∈ l := by
  induction l with
  | nil => simp [getEntry] at h
  | cons p rest ih =>
    by_cases hp : p.1 = k
    · simp only [getEntry, if_pos hp, Option.some.injEq] at h
      exact List.mem_cons.2 (Or.inl (by rw [← hp, ← h]))
    · simp only [getEntry, if_neg hp] at h
      exact List.mem_cons_of_mem _ (ih h)

/-! ### Minimum-age scan lemmas -/

theorem foldl_minStep_cases (l : List (K × CacheGuard V)) (acc : K × CacheGuard V) :
    l.foldl minStep acc = acc ∨ l.foldl minStep acc ∈ l := by
  induction l generalizing acc with
  | nil => exact Or.inl rfl
  | cons q rest ih =>
    simp only [List.foldl_cons]
    rcases ih (minStep acc q) with h | h
    · rw [h]
      unfold minStep
      split
      · exact Or.inr (List.mem_cons_self _ _)
      · exact Or.inl rfl
    · exact Or.inr (List.mem_cons_of_mem _ h)

theorem foldl_minStep_le_acc (l : List (K × CacheGuard V)) (acc : K × CacheGuard V) :
    (l.foldl minStep acc).2.age ≤ acc.2.age := by
  induction l generalizing acc with
  | nil => exact Nat.le_refl _
  | cons q rest ih =>
    simp only [List.foldl_cons]
    refine Nat.le_trans (ih (minStep acc q)) ?_
    unfold minStep
    split
    · omega
    · exact Nat.le_refl _

theorem foldl_minStep_le_mem (l : List (K × CacheGuard V)) (acc q : K × CacheGuard V)
    (h : q ∈ l) : (l.foldl minStep acc).2.age ≤ q.2.age := by
  induction l generalizing acc with
  | nil => simp at h
  | cons r rest ih =>
    simp only [List.foldl_cons]
    rcases List.mem_cons.1 h with h' | h'
    · subst h'
      refine Nat.le_trans (foldl_minStep_le_acc rest (minStep acc q)) ?_
      unfold minStep
      split
      · exact Nat.le_refl _
      · omega
    · exact ih (minStep acc r) h'

theorem minByAge_mem (l : List (K × CacheGuard V)) (p : K × CacheGuard V)
    (h : minByAge l = some p) : p ∈ l := by
  match l with
  | [] => simp [minByAge] at h
  | q :: rest =>
    simp only [minByAge, Option.some.injEq] at h
    rcases foldl_minStep_cases rest q with h' | h'
    · exact List.mem_cons.2 (Or.inl (h ▸ h'))
    · exact List.mem_cons_of_mem _ (h ▸ h')

theorem minByAge_le (l : List (K × CacheGuard V)) (p q : K × CacheGuard V)
    (h : minByAge l = some p) (hq : q ∈ l) : p.2.age ≤ q.2.age := by
  match l with
  | [] => simp [minByAge] at h
  | r :: rest =>
    simp only [minByAge, Option.some.injEq] at h
    rcases List.mem_cons.1 hq with h' | h'
    · subst h'
      exact h ▸ foldl_minStep_le_acc rest q
    · exact h ▸ foldl_minStep_le_mem rest r q h'

theorem minByAge_ne_none (l : List (K × CacheGuard V)) (h : l ≠ []) :
    ∃ p, minByAge l = some p := by
  match l with
  | [] => exact absurd rfl h
  | q :: rest => exact ⟨rest.foldl minStep q, rfl⟩

/-! ### Age-update lemmas -/

theorem keys_setGuardAge (l : List (K × CacheGuard V)) (k : K) (a : Nat) :
    (setGuardAge l k a).map Prod.fst = l.map Prod.fst := by
  induction l with
  | nil => rfl
  | cons p rest ih =>
    by_cases hp : p.1 = k <;> simp [setGuardAge, hp, ih]

theorem length_setGuardAge (l : List (K × CacheGuard V)) (k : K) (a : Nat) :
    (setGuardAge l k a).length = l.length := by
  induction l with
  | nil => rfl
  | cons p rest ih =>
    by_cases hp : p.1 = k <;> simp [setGuardAge, hp, ih]

theorem getEntry_setGuardAge_self (l : List (K × CacheGuard V)) (k : K) (a : Nat)
    (g : CacheGuard V) (h : getEntry l k = some g) :
    getEntry (setGuardAge l k a) k = some ⟨a, g.value⟩ := by
  induction l with
  | nil => simp [getEntry] at h
  | cons p rest ih =>
    by_cases hp : p.1 = k
    · simp only [getEntry, if_pos hp, Option.some.injEq] at h
      simp [setGuardAge, getEntry, hp, h]
    · simp only [getEntry, if_neg hp] at h
      simp [setGuardAge, getEntry, hp, ih h]

theorem getEntry_setGuardAge_ne (l : List (K × CacheGuard V)) (k k' : K) (a : Nat)
    (h : k' ≠ k) : getEntry (setGuardAge l k a) k' = getEntry l k' := by
  induction l with
  | nil => rfl
  | cons p rest ih =>
    by_cases hp : p.1 = k
    · subst hp
      simp [setGuardAge, getEntry, Ne.symm h]
    · by_cases hp' : p.1 = k' <;> simp [setGuardAge, getEntry, hp, hp', h, ih]

theorem age_lt_of_setGuardAge (l : List (K × CacheGuard V)) (k : K) (a c : Nat)
    (ha : a < c) (h : ∀ p ∈ l, p.2.age < c) :
    ∀ q ∈ setGuardAge l k a, q.2.age < c := by
  induction l with
  | nil => simp [setGuardAge]
  | cons p rest ih =>
    intro q hq
    by_cases hp : p.1 = k
    · simp only [setGuardAge, if_pos hp, List.mem_cons] at hq
      rcases hq with hq | hq
      · simpa [hq] using ha
      · exact h q (List.mem_cons_of_mem _ hq)
    · simp only [setGuardAge, if_neg hp, List.mem_cons] at hq
      rcases hq with hq | hq
      · exact hq ▸ h p (List.mem_cons_self _ _)
      · exact ih (fun r hr => h r (List.mem_cons_of_mem _ hr)) q hq

/-! ### Characterizations of `internal_insert`

`internal_insert` takes exactly one of three paths: update of a present
key (no eviction), insert of a new key within capacity (no eviction), or
insert of a new key beyond capacity (minimum-age eviction). -/

theorem internal_insert_update (m : FixedSizeLruMap K V) (k : K) (v : V) (g0 : CacheGuard V)
    (hg : getEntry m.map k = some g0) :
    m.internal_insert k v =
      (⟨m.age + 1, m.capacity, (insertEntry m.map k ⟨m.age, v⟩).1⟩, (⟨m.age, v⟩, some g0)) := by
  simp [FixedSizeLruMap.internal_insert, insertEntry_snd, hg]

theorem internal_insert_new_no_evict (m : FixedSizeLruMap K V) (k : K) (v : V)
    (hg : getEntry m.map k = none)
    (hle : (insertEntry m.map k ⟨m.age, v⟩).1.length ≤ m.capacity) :
    m.internal_insert k v =
      (⟨m.age + 1, m.capacity, (insertEntry m.map k ⟨m.age, v⟩).1⟩, (⟨m.age, v⟩, none)) := by
  simp [FixedSizeLruMap.internal_insert, insertEntry_snd, hg, Nat.not_lt.2 hle]

theorem internal_insert_new_evict (m : FixedSizeLruMap K V) (k : K) (v : V)
    (p : K × CacheGuard V) (hg : getEntry m.map k = none)
    (hgt : m.capacity < (insertEntry m.map k ⟨m.age, v⟩).1.length)
    (hmin : minByAge (insertEntry m.map k ⟨m.age, v⟩).1 = some p) :
    m.internal_insert k v =
      (⟨m.age + 1, m.capacity, (removeEntry (insertEntry m.map k ⟨m.age, v⟩).1 p.1).1⟩,
        (⟨m.age, v⟩, none)) := by
  simp [FixedSizeLruMap.internal_insert, insertEntry_snd, hg, hgt, hmin]

/-- On a well-formed state, the minimum-age entry of the table obtained by
installing a new key is an old entry: its key differs from the new key. -/
theorem min_entry_is_old (m : FixedSizeLruMap K V) (k : K) (v : V)
    (p : K × CacheGuard V) (hwf : WF m) (hg : getEntry m.map k = none)
    (hne : m.map ≠ [])
    (hmin : minByAge (insertEntry m.map k ⟨m.age, v⟩).1 = some p) :
    p.1 ≠ k ∧ p ∈ m.map := by
  obtain ⟨q, hq⟩ := List.exists_mem_of_ne_nil m.map hne
  have hq1 : q ∈ (insertEntry m.map k ⟨m.age, v⟩).1 := by
    rw [insertEntry_of_none m.map k _ hg]
    exact List.mem_append_left _ hq
  have hple : p.2.age ≤ q.2.age := minByAge_le _ p q hmin hq1
  have hqlt : q.2.age < m.age := hwf.2 q hq
  have hp1 := minByAge_mem _ p hmin
  rcases mem_insertEntry m.map k ⟨m.age, v⟩ p hp1 with hcase | hcase
  · exfalso
    rw [hcase] at hple
    exact Nat.lt_irrefl _ (Nat.lt_of_lt_of_le hqlt (by simpa using hple))
  · exact ⟨forall_ne_of_getEntry_eq_none m.map k hg p hcase, hcase⟩

/-! ### Invariant preservation -/

/-- Reachability invariant plus the capacity bound. -/
def Good (m : FixedSizeLruMap K V) : Prop :=
  WF m ∧ m.len ≤ m.capacity

theorem WF_with_capacity (cap : Nat) : WF (FixedSizeLruMap.with_capacity cap : FixedSizeLruMap K V) := by
  constructor <;> simp [FixedSizeLruMap.with_capacity, FixedSizeLruMap.with_capacity_and_hasher]

theorem WF_internal_insert (m : FixedSizeLruMap K V) (k : K) (v : V) (hwf : WF m) :
    WF (m.internal_insert k v).1 := by
  rcases hwf with ⟨hnd, hage⟩
  have hmem_ok : ∀ q ∈ (insertEntry m.map k (⟨m.age, v⟩ : CacheGuard V)).1,
      q.2.age < m.age + 1 := by
    intro q hq
    rcases mem_insertEntry m.map k _ q hq with h | h
    · simp [h]
    · exact Nat.lt_succ_of_lt (hage q h)
  cases hg : getEntry m.map k with
  | some g0 =>
    rw [internal_insert_update m k v g0 hg]
    refine ⟨?_, ?_⟩
    · simpa [keys_insertEntry_some m.map k _ g0 hg] using hnd
    · exact hmem_ok
  | none =>
    have hkeys : (insertEntry m.map k (⟨m.age, v⟩ : CacheGuard V)).1.map Prod.fst =
        m.map.map Prod.fst ++ [k] := by
      rw [insertEntry_of_none m.map k _ hg]
      simp
    have hnd1 : ((insertEntry m.map k (⟨m.age, v⟩ : CacheGuard V)).1.map Prod.fst).Nodup := by
      rw [hkeys]
      refine List.Nodup.append hnd (List.nodup_singleton k) ?_
      intro a ha hb
      rcases List.mem_map.1 ha with ⟨q, hq, hq'⟩
      rcases List.mem_singleton.1 hb with rfl
      exact forall_ne_of_getEntry_eq_none m.map a hg q hq hq'
    by_cases hgt : m.capacity < (insertEntry m.map k (⟨m.age, v⟩ : CacheGuard V)).1.length
    · obtain ⟨p, hmin⟩ := minByAge_ne_none (insertEntry m.map k (⟨m.age, v⟩ : CacheGuard V)).1
        (by intro hnil; rw [hnil] at hgt; simp at hgt)
      rw [internal_insert_new_evict m k v p hg hgt hmin]
      have hsub := removeEntry_sublist (insertEntry m.map k (⟨m.age, v⟩ : CacheGuard V)).1 p.1
      refine ⟨?_, ?_⟩
      · exact List.Nodup.sublist (hsub.map Prod.fst) hnd1
      · intro q hq
        exact hmem_ok q (hsub.mem hq)
    · rw [internal_insert_new_no_evict m k v hg (Nat.not_lt.1 hgt)]
      exact ⟨hnd1, hmem_ok⟩

theorem WF_get (m : FixedSizeLruMap K V) (k : K) (hwf : WF m) : WF (m.get k).1 := by
  rcases hwf with ⟨hnd, hage⟩
  unfold FixedSizeLruMap.get
  cases hg : getEntry m.map k with
  | some g =>
    refine ⟨?_, ?_⟩
    · simpa [FixedSizeLruMap.update_guard_age, keys_setGuardAge] using hnd
    · exact age_lt_of_setGuardAge m.map k m.age (m.age + 1) (Nat.lt_succ_self _)
        (fun p hp => Nat.lt_succ_of_lt (hage p hp))
  | none => exact ⟨hnd, hage⟩

theorem WF_remove (m : FixedSizeLruMap K V) (k : K) (hwf : WF m) : WF (m.remove k).1 := by
  rcases hwf with ⟨hnd, hage⟩
  unfold FixedSizeLruMap.remove
  by_cases hc : m.contains_key k
  · have hsub := removeEntry_sublist m.map k
    simp only [hc, if_pos]
    exact ⟨List.Nodup.sublist (hsub.map Prod.fst) hnd, fun q hq => hage q (hsub.mem hq)⟩
  · simp only [hc]
    exact ⟨hnd, hage⟩

theorem WF_get_or_init (m : FixedSizeLruMap K V) (k : K) (f : Unit → V) (hwf : WF m) :
    WF (m.get_or_init k f).1 := by
  have h1 := WF_get m k hwf
  unfold FixedSizeLruMap.get_or_init
  cases hg : m.get k with
  | mk m1 r =>
    rw [hg] at h1
    cases r with
    | some g => exact h1
    | none => exact WF_internal_insert m1 k (f ()) h1

theorem capacity_internal_insert (m : FixedSizeLruMap K V) (k : K) (v : V) :
    (m.internal_insert k v).1.capacity = m.capacity := rfl

theorem capacity_get (m : FixedSizeLruMap K V) (k : K) :
    (m.get k).1.capacity = m.capacity := by
  unfold FixedSizeLruMap.get
  cases getEntry m.map k <;> rfl

theorem capacity_remove (m : FixedSizeLruMap K V) (k : K) :
    (m.remove k).1.capacity = m.capacity := by
  unfold FixedSizeLruMap.remove
  by_cases hc : m.contains_key k <;> simp [hc]

theorem capacity_get_or_init (m : FixedSizeLruMap K V) (k : K) (f : Unit → V) :
    (m.get_or_init k f).1.capacity = m.capacity := by
  have h1 := capacity_get m k
  unfold FixedSizeLruMap.get_or_init
  cases hg : m.get k with
  | mk m1 r =>
    rw [hg] at h1
    cases r with
    | some g => exact h1
    | none => exact (capacity_internal_insert m1 k (f ())).trans h1

theorem len_internal_insert_le (m : FixedSizeLruMap K V) (k : K) (v : V)
    (h : m.len ≤ m.capacity) : (m.internal_insert k v).1.len ≤ m.capacity := by
  cases hg : getEntry m.map k with
  | some g0 =>
    rw [internal_insert_update m k v g0 hg]
    simpa [FixedSizeLruMap.len, length_insertEntry_some m.map k _ g0 hg] using h
  | none =>
    by_cases hgt : m.capacity < (insertEntry m.map k (⟨m.age, v⟩ : CacheGuard V)).1.length
    · obtain ⟨p, hmin⟩ := minByAge_ne_none (insertEntry m.map k (⟨m.age, v⟩ : CacheGuard V)).1
        (by intro hnil; rw [hnil] at hgt; simp at hgt)
      rw [internal_insert_new_evict m k v p hg hgt hmin]
      have hp := minByAge_mem _ p hmin
      obtain ⟨g, hgp⟩ := getEntry_isSome_of_mem _ p hp
      have hlen := length_removeEntry_some _ p.1 g hgp
      have hlen1 : (insertEntry m.map k (⟨m.age, v⟩ : CacheGuard V)).1.length
          = m.map.length + 1 := by
        rw [insertEntry_of_none m.map k _ hg]
        simp
      simp only [FixedSizeLruMap.len] at h ⊢
      omega
    · rw [internal_insert_new_no_evict m k v hg (Nat.not_lt.1 hgt)]
      simpa [FixedSizeLruMap.len] using Nat.not_lt.1 hgt

theorem Good_internal_insert (m : FixedSizeLruMap K V) (k : K) (v : V) (h : Good m) :
    Good (m.internal_insert k v).1 := by
  refine ⟨WF_internal_insert m k v h.1, ?_⟩
  rw [capacity_internal_insert]
  exact len_internal_insert_le m k v h.2

theorem Good_get (m : FixedSizeLruMap K V) (k : K) (h : Good m) : Good (m.get k).1 := by
  refine ⟨WF_get m k h.1, ?_⟩
  rw [capacity_get]
  unfold FixedSizeLruMap.get
  cases hg : getEntry m.map k with
  | some g =>
    simpa [FixedSizeLruMap.update_guard_age, FixedSizeLruMap.len, length_setGuardAge]
      using h.2
  | none => exact h.2

theorem Good_remove (m : FixedSizeLruMap K V) (k : K) (h : Good m) : Good (m.remove k).1 := by
  refine ⟨WF_remove m k h.1, ?_⟩
  rw [capacity_remove]
  unfold FixedSizeLruMap.remove
  by_cases hc : m.contains_key k
  · simp only [hc, if_pos]
    exact Nat.le_trans ((removeEntry_sublist m.map k).length_le) h.2
  · simp only [hc]
    exact h.2

theorem Good_get_or_init (m : FixedSizeLruMap K V) (k : K) (f : Unit → V) (h : Good m) :
    Good (m.get_or_init k f).1 := by
  have h1 := Good_get m k h
  unfold FixedSizeLruMap.get_or_init
  cases hg : m.get k with
  | mk m1 r =>
    rw [hg] at h1
    cases r with
    | some g => exact h1
    | none => exact Good_internal_insert m1 k (f ()) h1

theorem Good_with_capacity (cap : Nat) :
    Good (FixedSizeLruMap.with_capacity cap : FixedSizeLruMap K V) := by
  refine ⟨WF_with_capacity cap, ?_⟩
  simp [FixedSizeLruMap.with_capacity, FixedSizeLruMap.with_capacity_and_hasher,
    FixedSizeLruMap.len]

theorem Good_applyOp (m : FixedSizeLruMap K V) (o : Op K V) (h : Good m) :
    Good (applyOp m o) := by
  cases o with
  | insertOp k v => exact Good_internal_insert m k v h
  | getOp k => exact Good_get m k h
  | getOrInitOp k v => exact Good_get_or_init m k _ h
  | removeOp k => exact Good_remove m k h

theorem Good_run (m : FixedSizeLruMap K V) (ops : List (Op K V)) (h : Good m) :
    Good (run m ops) := by
  induction ops generalizing m with
  | nil => exact h
  | cons o rest ih => exact ih (applyOp m o) (Good_applyOp m o h)

theorem capacity_applyOp (m : FixedSizeLruMap K V) (o : Op K V) :
    (applyOp m o).capacity = m.capacity := by
  cases o with
  | insertOp k v => exact capacity_internal_insert m k v
  | getOp k => exact capacity_get m k
  | getOrInitOp k v => exact capacity_get_or_init m k _
  | removeOp k => exact capacity_remove m k

theorem capacity_run (m : FixedSizeLruMap K V) (ops : List (Op K V)) :
    (run m ops).capacity = m.capacity := by
  induction ops generalizing m with
  | nil => rfl
  | cons o rest ih => exact (ih (applyOp m o)).trans (capacity_applyOp m o)

/-! ### Further association-list facts used by the claims -/

theorem getEntry_of_mem_nodup (l : List (K × CacheGuard V)) (p : K × CacheGuard V)
    (hnd : (l.map Prod.fst).Nodup) (h : p ∈ l) : getEntry l p.1 = some p.2 := by
  induction l with
  | nil => simp at h
  | cons q rest ih =>
    rcases List.mem_cons.1 h with h' | h'
    · subst h'
      simp [getEntry]
    · have hq1 : q.1 ≠ p.1 := by
        intro he
        exact (List.nodup_cons.1 hnd).1 (he ▸ List.mem_map.2 ⟨p, h', rfl⟩)
      simp only [getEntry, if_neg hq1]
      exact ih (List.nodup_cons.1 hnd).2 h'

theorem getEntry_removeEntry_self (l : List (K × CacheGuard V)) (k : K)
    (hnd : (l.map Prod.fst).Nodup) : getEntry (removeEntry l k).1 k = none := by
  induction l with
  | nil => rfl
  | cons p rest ih =>
    by_cases hp : p.1 = k
    · subst hp
      simp only [removeEntry, if_pos rfl]
      refine getEntry_eq_none_of_forall rest p.1 ?_
      intro q hq he
      exact (List.nodup_cons.1 hnd).1 (he ▸ List.mem_map.2 ⟨q, hq, rfl⟩)
    · simp only [removeEntry, if_neg hp, getEntry]
      exact ih (List.nodup_cons.1 hnd).2

theorem nodup_keys_insertEntry_new (l : List (K × CacheGuard V)) (k : K) (g : CacheGuard V)
    (hnd : (l.map Prod.fst).Nodup) (hg : getEntry l k = none) :
    ((insertEntry l k g).1.map Prod.fst).Nodup := by
  rw [insertEntry_of_none l k g hg]
  simp only [List.map_append, List.map_cons, List.map_nil]
  refine List.Nodup.append hnd (List.nodup_singleton k) ?_
  intro a ha hb
  rcases List.mem_map.1 ha with ⟨q, hq, hq'⟩
  rcases List.mem_singleton.1 hb with rfl
  exact forall_ne_of_getEntry_eq_none l a hg q hq hq'

/-- Survival of the freshly inserted entry: on a well-formed state with
capacity at least 1, `internal_insert` leaves the new guard installed at
its key, whatever branch it takes. -/
theorem internal_insert_getEntry_self (m : FixedSizeLruMap K V) (k : K) (v : V)
    (hcap : 1 ≤ m.capacity) (hwf : WF m) :
    getEntry (m.internal_insert k v).1.map k = some ⟨m.age, v⟩ := by
  cases hg : getEntry m.map k with
  | some g0 =>
    rw [internal_insert_update m k v g0 hg]
    exact getEntry_insertEntry_self m.map k _
  | none =>
    have hlen1 : (insertEntry m.map k (⟨m.age, v⟩ : CacheGuard V)).1.length
        = m.map.length + 1 := by
      rw [insertEntry_of_none m.map k _ hg]
      simp
    by_cases hgt : m.capacity < (insertEntry m.map k (⟨m.age, v⟩ : CacheGuard V)).1.length
    · have hne : m.map ≠ [] := by
        intro hnil
        rw [hlen1, hnil] at hgt
        simp at hgt
        omega
      obtain ⟨p, hmin⟩ := minByAge_ne_none (insertEntry m.map k (⟨m.age, v⟩ : CacheGuard V)).1
        (List.ne_nil_of_length_pos (by omega))
      obtain ⟨hpk, _⟩ := min_entry_is_old m k v p hwf hg hne hmin
      rw [internal_insert_new_evict m k v p hg hgt hmin]
      show getEntry (removeEntry _ p.1).1 k = _
      rw [getEntry_removeEntry_ne _ p.1 k (Ne.symm hpk)]
      exact getEntry_insertEntry_self m.map k _
    · rw [internal_insert_new_no_evict m k v hg (Nat.not_lt.1 hgt)]
      exact getEntry_insertEntry_self m.map k _

/-! ### Concrete states used by the witnesses -/

/-- Clock at 2, capacity 1, one entry (key 1, age 0, value 10): the next
fresh insert triggers an eviction. -/
def sampleState : FixedSizeLruMap Nat Nat := ⟨2, 1, [(1, ⟨0, 10⟩)]⟩

/-- Clock at 3, capacity 2, two entries of ages 1 and 2. -/
def pairState : FixedSizeLruMap Nat Nat := ⟨3, 2, [(0, ⟨1, 7⟩), (1, ⟨2, 9⟩)]⟩

/-! ### The claims -/

/-- C1: Capacity invariant: for every capacity and every sequence of
completed operations (insert, get_or_init, remove, get) starting from the
freshly constructed map, `len() <= capacity` holds after every completed
mutation (every prefix of a sequence is itself a sequence, so this covers
every intermediate state); in particular it holds for all sequences of
inserts of distinct keys. -/
theorem capacity_invariant (cap : Nat) (ops : List (Op K V)) :
    (run (FixedSizeLruMap.with_capacity cap) ops).len ≤ cap := by
  have h := Good_run (FixedSizeLruMap.with_capacity cap : FixedSizeLruMap K V) ops
    (Good_with_capacity cap)
  have hc := capacity_run (FixedSizeLruMap.with_capacity cap : FixedSizeLruMap K V) ops
  exact Nat.le_trans h.2 (Nat.le_of_eq hc)

/-- C2: LRU eviction rule: when insert is called with a key not currently
present, then if installing the new entry makes `len() > capacity`,
exactly one entry is removed (the final length is one less than the
installed length), and the removed entry is the minimum-age scan's pick,
whose age is smallest among all entries of the table at that moment; and
if the installed table is within capacity, no entry is removed. -/
theorem lru_eviction_rule (m : FixedSizeLruMap K V) (k : K) (v : V)
    (hnd : (m.map.map Prod.fst).Nodup) (hnew : getEntry m.map k = none) :
    ((insertEntry m.map k ⟨m.age, v⟩).1.length ≤ m.capacity →
      (m.internal_insert k v).1.map = (insertEntry m.map k ⟨m.age, v⟩).1) ∧
    (m.capacity < (insertEntry m.map k ⟨m.age, v⟩).1.length →
      ∃ p, minByAge (insertEntry m.map k ⟨m.age, v⟩).1 = some p ∧
        p ∈ (insertEntry m.map k ⟨m.age, v⟩).1 ∧
        (∀ q ∈ (insertEntry m.map k ⟨m.age, v⟩).1, p.2.age ≤ q.2.age) ∧
        (m.internal_insert k v).1.map
          = (removeEntry (insertEntry m.map k ⟨m.age, v⟩).1 p.1).1 ∧
        (removeEntry (insertEntry m.map k ⟨m.age, v⟩).1 p.1).2 = some p.2 ∧
        (m.internal_insert k v).1.map.length + 1
          = (insertEntry m.map k ⟨m.age, v⟩).1.length) := by
  constructor
  · intro hle
    rw [internal_insert_new_no_evict m k v hnew hle]
  · intro hgt
    obtain ⟨p, hmin⟩ := minByAge_ne_none (insertEntry m.map k (⟨m.age, v⟩ : CacheGuard V)).1
      (List.ne_nil_of_length_pos (by omega))
    have hp := minByAge_mem _ p hmin
    have hnd1 := nodup_keys_insertEntry_new m.map k ⟨m.age, v⟩ hnd hnew
    have hget : getEntry (insertEntry m.map k (⟨m.age, v⟩ : CacheGuard V)).1 p.1 = some p.2 :=
      getEntry_of_mem_nodup _ p hnd1 hp
    refine ⟨p, hmin, hp, fun q hq => minByAge_le _ p q hmin hq, ?_, ?_, ?_⟩
    · rw [internal_insert_new_evict m k v p hnew hgt hmin]
    · rw [removeEntry_snd]
      exact hget
    · rw [internal_insert_new_evict m k v p hnew hgt hmin]
      exact length_removeEntry_some _ p.1 p.2 hget

/-- Witness for C2 at `sampleState` (key 0 is fresh and the table is at
capacity, so the eviction branch is live). -/
theorem lru_eviction_rule_witness :
    ((insertEntry sampleState.map 0 ⟨sampleState.age, 5⟩).1.length ≤ sampleState.capacity →
      (sampleState.internal_insert 0 5).1.map
        = (insertEntry sampleState.map 0 ⟨sampleState.age, 5⟩).1) ∧
    (sampleState.capacity < (insertEntry sampleState.map 0 ⟨sampleState.age, 5⟩).1.length →
      ∃ p, minByAge (insertEntry sampleState.map 0 ⟨sampleState.age, 5⟩).1 = some p ∧
        p ∈ (insertEntry sampleState.map 0 ⟨sampleState.age, 5⟩).1 ∧
        (∀ q ∈ (insertEntry sampleState.map 0 ⟨sampleState.age, 5⟩).1, p.2.age ≤ q.2.age) ∧
        (sampleState.internal_insert 0 5).1.map
          = (removeEntry (insertEntry sampleState.map 0 ⟨sampleState.age, 5⟩).1 p.1).1 ∧
        (removeEntry (insertEntry sampleState.map 0 ⟨sampleState.age, 5⟩).1 p.1).2
          = some p.2 ∧
        (sampleState.internal_insert 0 5).1.map.length + 1
          = (insertEntry sampleState.map 0 ⟨sampleState.age, 5⟩).1.length) :=
  lru_eviction_rule sampleState 0 5 (by decide) (by decide)

/-- C3: Update is not growth: when key `k` is already present,
`insert(k, v)` performs no eviction (the final table is exactly the
installed table), leaves `len()` unchanged, and changes only `k`'s entry,
which is replaced by the freshly stamped guard. -/
theorem update_is_not_growth (m : FixedSizeLruMap K V) (k : K) (v : V) (g0 : CacheGuard V)
    (hpres : getEntry m.map k = some g0) :
    (m.internal_insert k v).1.map = (insertEntry m.map k ⟨m.age, v⟩).1 ∧
    (m.internal_insert k v).1.len = m.len ∧
    getEntry (m.internal_insert k v).1.map k = some ⟨m.age, v⟩ ∧
    (∀ k', k' ≠ k → getEntry (m.internal_insert k v).1.map k' = getEntry m.map k') := by
  have hch := internal_insert_update m k v g0 hpres
  refine ⟨by rw [hch], ?_, ?_, ?_⟩
  · rw [hch]
    exact length_insertEntry_some m.map k _ g0 hpres
  · rw [hch]
    exact getEntry_insertEntry_self m.map k _
  · intro k' hk
    rw [hch]
    exact getEntry_insertEntry_ne m.map k k' _ hk

/-- Witness for C3 at `pairState` (key 0 present with value 7, overwritten
by 5). -/
theorem update_is_not_growth_witness :
    (pairState.internal_insert 0 5).1.map = (insertEntry pairState.map 0 ⟨pairState.age, 5⟩).1 ∧
    (pairState.internal_insert 0 5).1.len = pairState.len ∧
    getEntry (pairState.internal_insert 0 5).1.map 0 = some ⟨pairState.age, 5⟩ ∧
    (∀ k', k' ≠ 0 → getEntry (pairState.internal_insert 0 5).1.map k'
      = getEntry pairState.map k') :=
  update_is_not_growth pairState 0 5 ⟨1, 7⟩ (by decide)

/-- C4, counterexample: on a map of capacity 0, a fresh insert (the
previous-guard component is `none`) triggers eviction whose minimum-age
scan picks exactly the entry just inserted, leaving the table without it;
the claim's "for every capacity" is therefore false at capacity 0. -/
theorem insert_can_evict_itself_at_capacity_zero :
    ((FixedSizeLruMap.with_capacity 0 : FixedSizeLruMap Nat Nat).internal_insert 0 5).2.2
      = none ∧
    minByAge (insertEntry (FixedSizeLruMap.with_capacity 0 : FixedSizeLruMap Nat Nat).map 0
        ⟨0, 5⟩).1 = some (0, ⟨0, 5⟩) ∧
    ((FixedSizeLruMap.with_capacity 0 : FixedSizeLruMap Nat Nat).internal_insert 0 5).1.map
      = [] := by
  decide

/-- C4, amended: for every capacity at least 1 and every well-formed state
(no duplicate keys and every stored age strictly below the clock, true of
all reachable states), when an insert triggers eviction the evicted entry
is an old entry whose key differs from the inserted key, and the freshly
inserted entry survives its own insert. -/
theorem fresh_entry_survives_eviction (m : FixedSizeLruMap K V) (k : K) (v : V)
    (hcap : 1 ≤ m.capacity) (hwf : WF m) (hnew : getEntry m.map k = none)
    (hover : m.capacity < (insertEntry m.map k ⟨m.age, v⟩).1.length) :
    ∃ p, minByAge (insertEntry m.map k ⟨m.age, v⟩).1 = some p ∧ p.1 ≠ k ∧ p ∈ m.map ∧
      (m.internal_insert k v).1.map
        = (removeEntry (insertEntry m.map k ⟨m.age, v⟩).1 p.1).1 ∧
      getEntry (m.internal_insert k v).1.map k = some ⟨m.age, v⟩ := by
  have hlen1 : (insertEntry m.map k (⟨m.age, v⟩ : CacheGuard V)).1.length
      = m.map.length + 1 := by
    rw [insertEntry_of_none m.map k _ hnew]
    simp
  have hne : m.map ≠ [] := by
    intro hnil
    rw [hlen1, hnil] at hover
    simp at hover
    omega
  obtain ⟨p, hmin⟩ := minByAge_ne_none (insertEntry m.map k (⟨m.age, v⟩ : CacheGuard V)).1
    (List.ne_nil_of_length_pos (by omega))
  obtain ⟨hpk, hpm⟩ := min_entry_is_old m k v p hwf hnew hne hmin
  exact ⟨p, hmin, hpk, hpm, by rw [internal_insert_new_evict m k v p hnew hover hmin],
    internal_insert_getEntry_self m k v hcap hwf⟩

/-- Witness for the amended C4 at `sampleState`: the eviction removes the
old key 1, not the freshly inserted key 0. -/
theorem fresh_entry_survives_eviction_witness :
    ∃ p, minByAge (insertEntry sampleState.map 0 ⟨sampleState.age, 5⟩).1 = some p ∧
      p.1 ≠ 0 ∧ p ∈ sampleState.map ∧
      (sampleState.internal_insert 0 5).1.map
        = (removeEntry (insertEntry sampleState.map 0 ⟨sampleState.age, 5⟩).1 p.1).1 ∧
      getEntry (sampleState.internal_insert 0 5).1.map 0 = some ⟨sampleState.age, 5⟩ :=
  fresh_entry_survives_eviction sampleState 0 5 (by decide) ⟨by decide, by decide⟩
    (by decide) (by decide)

/-- C5: Capacity 0 behaviour: in every state reachable on a map
constructed with capacity 0, every insert is a fresh insert (never an
update, since the table is provably empty), and it is immediately followed
by eviction of the entry just inserted: the minimum-age scan picks the new
entry and the table is empty after the call. -/
theorem capacity_zero_evicts_inserted (ops : List (Op K V)) (k : K) (v : V) :
    ((run (FixedSizeLruMap.with_capacity 0) ops).internal_insert k v).2.2 = none ∧
    minByAge (insertEntry (run (FixedSizeLruMap.with_capacity 0) ops).map k
        ⟨(run (FixedSizeLruMap.with_capacity 0) ops).age, v⟩).1
      = some (k, ⟨(run (FixedSizeLruMap.with_capacity 0) ops).age, v⟩) ∧
    ((run (FixedSizeLruMap.with_capacity 0) ops).internal_insert k v).1.map = [] := by
  set m := run (FixedSizeLruMap.with_capacity 0 : FixedSizeLruMap K V) ops with hm
  have hgood : Good m := Good_run _ ops (Good_with_capacity 0)
  have hcap : m.capacity = 0 := capacity_run _ ops
  have hmap : m.map = [] := by
    have hlen := hgood.2
    rw [hcap] at hlen
    exact List.length_eq_zero.1 (Nat.le_zero.1 hlen)
  have hgnone : getEntry m.map k = none := by
    rw [hmap]
    rfl
  have hins : insertEntry m.map k (⟨m.age, v⟩ : CacheGuard V) = ([(k, ⟨m.age, v⟩)], none) := by
    rw [hmap]
    rfl
  have hmin : minByAge (insertEntry m.map k (⟨m.age, v⟩ : CacheGuard V)).1
      = some (k, ⟨m.age, v⟩) := by
    rw [hins]
    rfl
  have hgt : m.capacity < (insertEntry m.map k (⟨m.age, v⟩ : CacheGuard V)).1.length := by
    rw [hins, hcap]
    simp
  refine ⟨?_, hmin, ?_⟩
  · rw [internal_insert_new_evict m k v (k, ⟨m.age, v⟩) hgnone hgt hmin]
  · rw [internal_insert_new_evict m k v (k, ⟨m.age, v⟩) hgnone hgt hmin]
    show (removeEntry (insertEntry m.map k ⟨m.age, v⟩).1 k).1 = []
    rw [hins]
    simp [removeEntry]

/-- C6, counterexample: on the empty capacity-2 map, the public
`insert(0, 5)` returns `none` — it returns no guard at all, and in
particular not the new guard — even though a freshly stamped guard was
created and installed at the key; so `insert` does not return "both the
new guard and the previous guard" as the claim states. -/
theorem insert_discards_new_guard :
    ((FixedSizeLruMap.with_capacity 2 : FixedSizeLruMap Nat Nat).insert 0 5).2 = none ∧
    getEntry ((FixedSizeLruMap.with_capacity 2 : FixedSizeLruMap Nat Nat).insert 0 5).1.map 0
      = some ⟨0, 5⟩ := by
  decide

/-- C6, amended: `internal_insert(key, value)` wraps `value` in a new
guard stamped with the fresh clock tick `m.age`, installs it at `key`
(before any eviction), advances the clock, and returns the new guard
together with the guard previously stored at `key` if one was present
(`none` otherwise); the public `insert` returns only that previous-guard
component and discards the new guard. -/
theorem insert_return_value (m : FixedSizeLruMap K V) (k : K) (v : V) :
    (m.internal_insert k v).2.1 = ⟨m.age, v⟩ ∧
    (m.internal_insert k v).2.2 = getEntry m.map k ∧
    (m.internal_insert k v).1.age = m.age + 1 ∧
    getEntry (insertEntry m.map k ⟨m.age, v⟩).1 k = some ⟨m.age, v⟩ ∧
    m.insert k v = ((m.internal_insert k v).1, getEntry m.map k) := by
  have h2 : (m.internal_insert k v).2.2 = getEntry m.map k := insertEntry_snd m.map k _
  refine ⟨rfl, h2, rfl, getEntry_insertEntry_self m.map k _, ?_⟩
  show ((m.internal_insert k v).1, (m.internal_insert k v).2.2)
    = ((m.internal_insert k v).1, getEntry m.map k)
  rw [h2]

/-- C7: Get contract: if `key` is absent, `get` returns `none` and leaves
the state (clock included) untouched; if present, it returns a clone of
the stored guard re-stamped with the fresh tick `m.age` — strictly greater
than every stored age on a well-formed state — leaves the entry in the
table (with the new age), does not disturb other keys or the length, and
advances the clock by one. -/
theorem get_contract (m : FixedSizeLruMap K V) (k : K) (hwf : WF m) :
    (getEntry m.map k = none → m.get k = (m, none)) ∧
    (∀ g, getEntry m.map k = some g →
      (m.get k).2 = some ⟨m.age, g.value⟩ ∧
      (∀ p ∈ m.map, p.2.age < m.age) ∧
      getEntry (m.get k).1.map k = some ⟨m.age, g.value⟩ ∧
      (∀ k', k' ≠ k → getEntry (m.get k).1.map k' = getEntry m.map k') ∧
      (m.get k).1.len = m.len ∧
      (m.get k).1.age = m.age + 1) := by
  constructor
  · intro hg
    unfold FixedSizeLruMap.get
    rw [hg]
  · intro g hg
    have hgu : m.get k = (m.update_guard_age k, some ⟨m.age, g.value⟩) := by
      unfold FixedSizeLruMap.get
      rw [hg]
    rw [hgu]
    refine ⟨rfl, hwf.2, ?_, ?_, ?_, rfl⟩
    · show getEntry (setGuardAge m.map k m.age) k = some ⟨m.age, g.value⟩
      exact getEntry_setGuardAge_self m.map k m.age g hg
    · intro k' hk
      exact getEntry_setGuardAge_ne m.map k k' m.age hk
    · show (setGuardAge m.map k m.age).length = m.map.length
      exact length_setGuardAge m.map k m.age

/-- Witness for C7 at `pairState` with the present key 0. -/
theorem get_contract_witness :
    (getEntry pairState.map 0 = none → pairState.get 0 = (pairState, none)) ∧
    (∀ g, getEntry pairState.map 0 = some g →
      (pairState.get 0).2 = some ⟨pairState.age, g.value⟩ ∧
      (∀ p ∈ pairState.map, p.2.age < pairState.age) ∧
      getEntry (pairState.get 0).1.map 0 = some ⟨pairState.age, g.value⟩ ∧
      (∀ k', k' ≠ 0 → getEntry (pairState.get 0).1.map k' = getEntry pairState.map k') ∧
      (pairState.get 0).1.len = pairState.len ∧
      (pairState.get 0).1.age = pairState.age + 1) :=
  get_contract pairState 0 ⟨by decide, by decide⟩

/-- C8: Remove contract: if `key` is absent, `remove` returns `none` and
changes nothing at all; if present, it removes exactly that entry and
returns its guard, without advancing the clock, without touching the
capacity, without disturbing any other key, and shrinking the length by
exactly one. -/
theorem remove_contract (m : FixedSizeLruMap K V) (k : K)
    (hnd : (m.map.map Prod.fst).Nodup) :
    (m.contains_key k = false → m.remove k = (m, none)) ∧
    (∀ g, getEntry m.map k = some g →
      (m.remove k).2 = some g ∧
      (m.remove k).1.age = m.age ∧
      (m.remove k).1.capacity = m.capacity ∧
      getEntry (m.remove k).1.map k = none ∧
      (∀ k', k' ≠ k → getEntry (m.remove k).1.map k' = getEntry m.map k') ∧
      (m.remove k).1.len + 1 = m.len) := by
  constructor
  · intro hc
    simp [FixedSizeLruMap.remove, hc]
  · intro g hg
    have hc : m.contains_key k = true := by
      unfold FixedSizeLruMap.contains_key
      rw [hg]
      rfl
    have hr : m.remove k
        = (⟨m.age, m.capacity, (removeEntry m.map k).1⟩, (removeEntry m.map k).2) := by
      simp [FixedSizeLruMap.remove, hc]
    rw [hr]
    refine ⟨?_, rfl, rfl, ?_, ?_, ?_⟩
    · show (removeEntry m.map k).2 = some g
      rw [removeEntry_snd]
      exact hg
    · exact getEntry_removeEntry_self m.map k hnd
    · intro k' hk
      exact getEntry_removeEntry_ne m.map k k' hk
    · show (removeEntry m.map k).1.length + 1 = m.map.length
      exact length_removeEntry_some m.map k g hg

/-- Witness for C8 at `pairState` with the present key 1. -/
theorem remove_contract_witness :
    (pairState.contains_key 1 = false → pairState.remove 1 = (pairState, none)) ∧
    (∀ g, getEntry pairState.map 1 = some g →
      (pairState.remove 1).2 = some g ∧
      (pairState.remove 1).1.age = pairState.age ∧
      (pairState.remove 1).1.capacity = pairState.capacity ∧
      getEntry (pairState.remove 1).1.map 1 = none ∧
      (∀ k', k' ≠ 1 → getEntry (pairState.remove 1).1.map k' = getEntry pairState.map k') ∧
      (pairState.remove 1).1.len + 1 = pairState.len) :=
  remove_contract pairState 1 (by decide)

/-- C9: Round-trip: on a well-formed state with capacity at least 1,
`insert(k, v)` immediately followed by `get(k)` returns a guard whose
wrapped value (the target of the guard's `Deref`) equals `v`. -/
theorem insert_get_round_trip (m : FixedSizeLruMap K V) (k : K) (v : V)
    (hcap : 1 ≤ m.capacity) (hwf : WF m) :
    ∃ g, ((m.insert k v).1.get k).2 = some g ∧ g.value = v := by
  have hs := internal_insert_getEntry_self m k v hcap hwf
  have h1 : (m.insert k v).1 = (m.internal_insert k v).1 := rfl
  refine ⟨⟨(m.internal_insert k v).1.age, v⟩, ?_, rfl⟩
  rw [h1]
  unfold FixedSizeLruMap.get
  rw [hs]

/-- Witness for C9 at `sampleState` (capacity 1, so the round trip crosses
an eviction). -/
theorem insert_get_round_trip_witness :
    ∃ g, ((sampleState.insert 0 5).1.get 0).2 = some g ∧ g.value = 5 :=
  insert_get_round_trip sampleState 0 5 (by decide) ⟨by decide, by decide⟩

/-- C10: A freshly constructed map is empty: for every capacity (including
0), `with_capacity` agrees with `with_capacity_and_hasher` (the hasher
never affects observable content), and the result has `len() == 0`,
`is_empty() == true`, and `contains_key(k) == false` for every key. -/
theorem with_capacity_gives_empty_map (cap : Nat) (k : K) :
    (FixedSizeLruMap.with_capacity cap : FixedSizeLruMap K V)
      = FixedSizeLruMap.with_capacity_and_hasher cap ∧
    (FixedSizeLruMap.with_capacity cap : FixedSizeLruMap K V).len = 0 ∧
    (FixedSizeLruMap.with_capacity cap : FixedSizeLruMap K V).is_empty = true ∧
    (FixedSizeLruMap.with_capacity cap : FixedSizeLruMap K V).contains_key k = false :=
  ⟨rfl, rfl, rfl, rfl⟩

end FixedSizeLru

